import Mathlib

/-!
Verification of the depth-exporter program (Go, two near-duplicate source
files: `main.go` and an unnamed variant).  The development shallowly embeds
the core data model and algorithms:

* Order mutation records and the two liveness classifiers (`Main.Order.isLive`
  from `main.go`, `Part0.Order.isLive` from the unnamed variant).
* The live-order table mutation loop of `doBucket` (insert/overwrite if live,
  delete otherwise), modelled on entry lists whose observable behaviour is
  the lookup map, mirroring the Go `map[entities.OrderID]Order`.
* The depth aggregation loop (`volume[m][lev] += remaining`), modelled as a
  fold over table entries producing an optional-value map, where `none` means
  the key is absent from the nested Go maps.  The accumulator is a Go
  `int64`, so the addition wraps around modulo `2^64` into the interval
  `[-2^63, 2^63)`; the fold uses this wrap-around addition explicitly.
* The descending-price sort of the per-market depth report.
* The bucket-driving loop of `main` and the half-open time-window query of
  `doBucket`.
* The CSV row-writing loops of the two variants (one propagates write errors,
  one discards them).

Machine times are modelled as naturals (nanoseconds since epoch), decimal
prices as rationals, and quantities as integers.
-/

namespace DepthExporter

/-- `entities.Side` (buy/sell, plus the protobuf unspecified value). -/
inductive Side where
  | Unspecified
  | Buy
  | Sell
deriving DecidableEq

/-- `entities.OrderStatus` values relevant to the program. -/
inductive OrderStatus where
  | Unspecified
  | Active
  | Expired
  | Cancelled
  | Stopped
  | Filled
  | Rejected
  | PartFilled
  | Parked
deriving DecidableEq

/-- `entities.OrderType`. -/
inductive OrderType where
  | Unspecified
  | Limit
  | Market
  | Network
deriving DecidableEq

/-- `entities.OrderTimeInForce`. -/
inductive OrderTimeInForce where
  | Unspecified
  | GTC
  | GTT
  | IOC
  | FOK
  | GFA
  | GFN
deriving DecidableEq

/-- `entities.OrderID`: a hex string identifier. -/
abbrev OrderID := String

/-- `entities.MarketID`: a hex string identifier. -/
abbrev MarketID := String

/-- `entities.PartyID`: a hex string identifier. -/
abbrev PartyID := String

namespace Main

/-- The `Order` struct of `main.go` (lines 25-34).  `decimal.Decimal` is an
arbitrary-precision decimal, embedded in the rationals; `Remaining` is an
`int64`, embedded in the integers.  The Go field `Type` is a Lean keyword and
is rendered `otype`; fields are otherwise the source fields in lower case. -/
structure Order where
  id : OrderID
  marketID : MarketID
  side : Side
  price : ℚ
  remaining : ℤ
  timeInForce : OrderTimeInForce
  otype : OrderType
  status : OrderStatus
deriving DecidableEq

/-- `Order.isLive` of `main.go` (lines 36-47), the strict classifier:
three guard clauses returning false, then true. -/
def Order.isLive (o : Order) : Bool :=
  if o.status ≠ OrderStatus.Active ∧ o.status ≠ OrderStatus.Parked then false
  else if o.otype ≠ OrderType.Limit then false
  else if o.timeInForce = OrderTimeInForce.IOC ∨ o.timeInForce = OrderTimeInForce.FOK then false
  else true

/-- The live-order table `liveOrders : map[entities.OrderID]Order`, modelled
as its entry list in some iteration order; the observable map is `lookupID`
and the Go map iteration order is an arbitrary permutation of the entries. -/
abbrev Table := List Order

/-- The Go map read `liveOrders[i]`. -/
def lookupID (tbl : Table) (i : OrderID) : Option Order :=
  tbl.find? (fun o => decide (o.id = i))

/-- One iteration of the mutation loop in `doBucket` (`main.go` lines 67-73):
`if order.isLive() { liveOrders[order.ID] = order } else
{ delete(liveOrders, order.ID) }`.  Map assignment and `delete` both remove
any entry with the record's key; assignment then adds the record. -/
def applyOrder (tbl : Table) (o : Order) : Table :=
  if o.isLive then o :: tbl.filter (fun x => decide (x.id ≠ o.id))
  else tbl.filter (fun x => decide (x.id ≠ o.id))

/-- The whole mutation loop of `doBucket`: the records of the bucket applied
in delivery order. -/
def applyOrders (tbl : Table) (os : List Order) : Table :=
  os.foldl applyOrder tbl

/-- The `Level` struct of `main.go` (lines 49-52). -/
structure Level where
  price : ℚ
  side : Side
deriving DecidableEq

/-- The level key built for an order in the aggregation loop:
`Level{price: order.Price, side: order.Side}` (`main.go` line 80). -/
def Order.level (o : Order) : Level :=
  ⟨o.price, o.side⟩

/-- The comparator of `main.go` line 94, as the sortedness relation it
establishes: `sort.Slice` with less `sprices[j].price.LessThan(sprices[i].price)`
guarantees that in the result an earlier element is never strictly cheaper
than a later one, i.e. prices are weakly descending.  The side is not
consulted (the source carries a `todo side` comment). -/
def levelGE (a b : Level) : Prop :=
  b.price ≤ a.price

instance : DecidableRel levelGE :=
  fun a b => inferInstanceAs (Decidable (b.price ≤ a.price))

instance : IsTotal Level levelGE :=
  ⟨fun a b => le_total b.price a.price⟩

instance : IsTrans Level levelGE :=
  ⟨fun _ _ _ hab hbc => le_trans hbc hab⟩

/-- The level keys of one market in the depth maps: `maps.Keys(prices)`
(`main.go` line 93), in some enumeration order without duplicates. -/
def levelsOfMarket (tbl : Table) (m : MarketID) : List Level :=
  ((tbl.filter (fun o => decide (o.marketID = m))).map (fun o => o.level)).dedup

/-- The emitted per-market depth report row order (`main.go` lines 93-94):
the level keys sorted by the descending-price comparator.  `sort.Slice` is
an unspecified (unstable) sort; `insertionSort` is one implementation
meeting its postcondition. -/
def depthReport (tbl : Table) (m : MarketID) : List Level :=
  List.insertionSort levelGE (levelsOfMarket tbl m)

/-- A row of the orders stream: the `vega_time` and `seq_num` columns that
order the query `order by vega_time, seq_num`, plus the decoded record. -/
structure TimedOrder where
  vegaTime : ℕ
  seqNum : ℕ
  order : Order
deriving DecidableEq

/-- The delivery order of the query: occurrence time, then sequence number. -/
def timeSeqLE (a b : TimedOrder) : Prop :=
  a.vegaTime < b.vegaTime ∨ (a.vegaTime = b.vegaTime ∧ a.seqNum ≤ b.seqNum)

instance : DecidableRel timeSeqLE :=
  fun a b =>
    inferInstanceAs (Decidable (a.vegaTime < b.vegaTime ∨
      (a.vegaTime = b.vegaTime ∧ a.seqNum ≤ b.seqNum)))

/-- The bucket query of `doBucket` (`main.go` lines 55-62) against an event
log: `where vega_time >= $1 and vega_time < $2 order by vega_time, seq_num`. -/
def fetchOrders (log : List TimedOrder) (start endTime : ℕ) : List TimedOrder :=
  List.insertionSort timeSeqLE
    (log.filter (fun r => decide (start ≤ r.vegaTime ∧ r.vegaTime < endTime)))

/-- Sample record: order A, first mutation (spec section 8 scenario). -/
def oA1 : Order :=
  ⟨"A", "M", Side.Buy, 100, 10, OrderTimeInForce.GTC, OrderType.Limit, OrderStatus.Active⟩

/-- Sample record: order A, second mutation. -/
def oA2 : Order :=
  ⟨"A", "M", Side.Buy, 100, 5, OrderTimeInForce.GTC, OrderType.Limit, OrderStatus.Active⟩

/-- Sample record: order A filled, hence non-live. -/
def oA3 : Order :=
  ⟨"A", "M", Side.Buy, 100, 0, OrderTimeInForce.GTC, OrderType.Limit, OrderStatus.Filled⟩

/-- Sample record: live sell order B at price 100. -/
def oB : Order :=
  ⟨"B", "M", Side.Sell, 100, 7, OrderTimeInForce.GTC, OrderType.Limit, OrderStatus.Active⟩

/-- Sample timed record at occurrence time 5. -/
def rE : TimedOrder :=
  ⟨5, 0, oB⟩

/-- A CSV record as handed to `csvWriter.Write`. -/
abbrev Row := List String

/-- The depth CSV row loop of `main.go` (lines 95-105) against an abstract
row writer: `csvWriter.Write(record)` is called and its returned error is
discarded (line 104 ignores the result), so the loop always completes. -/
def writeDepthRows (w : Row → Except String Unit) : List Row → Except String Unit
  | [] => Except.ok ()
  | r :: rs =>
    let _ := w r
    writeDepthRows w rs

end Main

namespace Part0

/-- The `Order` struct of the unnamed variant (lines 24-34): it adds a
`PartyID` field and stores the price as a `uint256.Int`, embedded as a
natural number. -/
structure Order where
  id : OrderID
  marketID : MarketID
  partyID : PartyID
  side : Side
  price : ℕ
  remaining : ℤ
  timeInForce : OrderTimeInForce
  otype : OrderType
  status : OrderStatus
deriving DecidableEq

/-- `Order.isLive` of the unnamed variant (lines 36-38):
`return o.Status == entities.OrderStatusActive`. -/
def Order.isLive (o : Order) : Bool :=
  decide (o.status = OrderStatus.Active)

/-- The row loop of `writeDepth` in the unnamed variant (lines 56-68):
each `csvWriter.Write(record)` error is checked and returned wrapped as
`failed to write to file: ...`, aborting the loop. -/
def writeRows (w : Main.Row → Except String Unit) : List Main.Row → Except String Unit
  | [] => Except.ok ()
  | r :: rs =>
    match w r with
    | Except.error e => Except.error ("failed to write to file: " ++ e)
    | Except.ok _ => writeRows w rs

end Part0

/-- The bucket loop of `main` (`main.go` lines 158-175) with the latest known
event time `T` fixed: starting from the aligned start, while the bucket end
`start + W` does not exceed `T`, process `[start, start + W)` and advance;
stop at the first bucket whose end is strictly after `T`.  Returns the
processed buckets in order.  `W` is the bucket width in time units and is
positive (`BUCKET_MINUTES` minutes). -/
def driveLoop (W : ℕ) (hW : 0 < W) (start T : ℕ) : List (ℕ × ℕ) :=
  if h : start + W ≤ T then (start, start + W) :: driveLoop W hW (start + W) T
  else []
termination_by T - start
decreasing_by simp_wf; omega

end DepthExporter

namespace DepthExporter

namespace Main

theorem lookupID_cons (x : Order) (t : Table) (i : OrderID) :
    lookupID (x :: t) i = if x.id = i then some x else lookupID t i := by
  by_cases h : x.id = i
  · rw [if_pos h]
    exact List.find?_cons_of_pos t (by simpa using h)
  · rw [if_neg h]
    exact List.find?_cons_of_neg t (by simpa using h)

theorem lookupID_filter_ne (tbl : Table) (i j : OrderID) (hij : i ≠ j) :
    lookupID (tbl.filter (fun x => decide (x.id ≠ j))) i = lookupID tbl i := by
  induction tbl with
  | nil => rfl
  | cons x t ih =>
      rw [List.filter_cons]
      by_cases hx : x.id = j
      · rw [if_neg (by simpa using hx), ih, lookupID_cons, if_neg (by rw [hx]; exact hij.symm)]
      · rw [if_pos (by simpa using hx), lookupID_cons, lookupID_cons]
        by_cases hxi : x.id = i
        · rw [if_pos hxi, if_pos hxi]
        · rw [if_neg hxi, if_neg hxi, ih]

theorem lookupID_filter_self (tbl : Table) (j : OrderID) :
    lookupID (tbl.filter (fun x => decide (x.id ≠ j))) j = none := by
  induction tbl with
  | nil => rfl
  | cons x t ih =>
      rw [List.filter_cons]
      by_cases hx : x.id = j
      · rw [if_neg (by simpa using hx), ih]
      · rw [if_pos (by simpa using hx), lookupID_cons, if_neg hx, ih]

theorem lookupID_applyOrder (tbl : Table) (o : Order) (i : OrderID) :
    lookupID (applyOrder tbl o) i =
      if i = o.id then (if o.isLive then some o else none) else lookupID tbl i := by
  by_cases hi : i = o.id
  · rw [if_pos hi]
    subst hi
    cases hlive : o.isLive with
    | false =>
        rw [if_neg (by simp)]
        simpa [applyOrder, hlive] using lookupID_filter_self tbl o.id
    | true =>
        rw [if_pos rfl]
        simp only [applyOrder]
        rw [if_pos hlive, lookupID_cons, if_pos rfl]
  · rw [if_neg hi]
    cases hlive : o.isLive with
    | false =>
        simp only [applyOrder]
        rw [if_neg (by rw [hlive]; exact Bool.false_ne_true)]
        exact lookupID_filter_ne tbl i o.id hi
    | true =>
        simp only [applyOrder]
        rw [if_pos hlive, lookupID_cons, if_neg (fun h => hi h.symm)]
        exact lookupID_filter_ne tbl i o.id hi

theorem lookupID_applyOrders_const (a : OrderID) (tbl : Table) (rs : List Order) (r : Order)
    (hr : r.id = a) (hrs : ∀ x ∈ rs, x.id = a) :
    lookupID (applyOrders tbl (rs ++ [r])) a =
      if r.isLive then some r else none := by
  induction rs generalizing tbl with
  | nil =>
      simp only [List.nil_append, applyOrders, List.foldl_cons, List.foldl_nil]
      rw [lookupID_applyOrder, if_pos hr.symm]
  | cons x t ih =>
      have ht : ∀ y ∈ t, y.id = a := fun y hy => hrs y (List.mem_cons_of_mem x hy)
      simpa [applyOrders] using ih (applyOrder tbl x) ht

/-- C1: one mutation-loop iteration, observed through the table's lookup map:
a live record is inserted or overwritten under its identifier, a non-live
record removes any entry under its identifier, no other identifier is
touched, and removal with no entry present leaves the table unchanged (and,
being a total function, raises no error). -/
theorem applyOrder_semantics (tbl : Table) (o : Order) :
    (o.isLive = true → lookupID (applyOrder tbl o) o.id = some o) ∧
      (o.isLive = false → lookupID (applyOrder tbl o) o.id = none) ∧
      (∀ i, i ≠ o.id → lookupID (applyOrder tbl o) i = lookupID tbl i) ∧
      (o.isLive = false → lookupID tbl o.id = none → applyOrder tbl o = tbl) := by
  refine ⟨fun h => ?_, fun h => ?_, fun i hi => ?_, fun h habs => ?_⟩
  · rw [lookupID_applyOrder, if_pos rfl, if_pos h]
  · rw [lookupID_applyOrder, if_pos rfl, if_neg (by rw [h]; exact Bool.false_ne_true)]
  · rw [lookupID_applyOrder, if_neg hi]
  · simp only [applyOrder]
    rw [if_neg (by rw [h]; exact Bool.false_ne_true)]
    rw [lookupID, List.find?_eq_none] at habs
    refine List.filter_eq_self.mpr (fun x hx => ?_)
    have := habs x hx
    simpa using fun hcontra => this (by simpa using hcontra)

theorem applyOrder_semantics_witness :
    lookupID (applyOrder [oB] oA3) oA3.id = none ∧ applyOrder [oB] oA3 = [oB] := by
  have h := applyOrder_semantics [oB] oA3
  exact ⟨h.2.1 (by decide), h.2.2.2 (by decide) (by decide)⟩

/-- C3: last-writer-wins for a single order identifier: after a finite
nonempty sequence of mutation records all bearing identifier `a` is applied
to any initial table, the entry under `a` agrees with applying only the last
record, namely present with that record exactly when the classifier accepts
it. -/
theorem applyOrders_last_writer_wins (a : OrderID) (tbl : Table) (rs : List Order) (r : Order)
    (hr : r.id = a) (hrs : ∀ x ∈ rs, x.id = a) :
    lookupID (applyOrders tbl (rs ++ [r])) a = lookupID (applyOrder tbl r) a ∧
      lookupID (applyOrders tbl (rs ++ [r])) a = (if r.isLive then some r else none) := by
  have h2 := lookupID_applyOrders_const a tbl rs r hr hrs
  refine ⟨?_, h2⟩
  rw [h2, lookupID_applyOrder, if_pos hr.symm]

theorem applyOrders_last_writer_wins_witness :
    lookupID (applyOrders [] ([oA1, oA2] ++ [oA3])) "A" = none := by
  have h := applyOrders_last_writer_wins "A" [] [oA1, oA2] oA3 rfl (by decide)
  rw [h.2]
  decide

/-- C4 (amended): within one market's depth report the price levels appear
in weakly descending price order; the comparator consults only the price, so
no strictness across equal-price levels and no deterministic side tie-break
is established. -/
theorem depthReport_weakly_descending (tbl : Table) (m : MarketID) :
    (depthReport tbl m).Pairwise (fun a b => b.price ≤ a.price) := by
  have h := List.sorted_insertionSort levelGE (levelsOfMarket tbl m)
  exact List.Pairwise.imp (fun hab => hab) h

/-- C4 (counterexample): with a live buy and a live sell order resting at the
same price in one market, the emitted report has two levels of equal price,
so its prices are not strictly descending. -/
theorem depthReport_not_strictly_descending :
    ¬ (depthReport (applyOrders [] [oA1, oB]) "M").Pairwise
      (fun a b => b.price < a.price) := by
  decide

/-- C6: a record is returned by the bucket query iff it is in the log and
its occurrence time lies in the half-open window `[start, endTime)`; a record
whose occurrence time equals the bucket end is excluded there and, when in
the log, returned by the next bucket's query `[endTime, endTime + W)`. -/
theorem fetchOrders_window (log : List TimedOrder) (r : TimedOrder) (s e W : ℕ) :
    (r ∈ fetchOrders log s e ↔ r ∈ log ∧ s ≤ r.vegaTime ∧ r.vegaTime < e) ∧
      (0 < W → r.vegaTime = e →
        r ∉ fetchOrders log s e ∧ (r ∈ log → r ∈ fetchOrders log e (e + W))) := by
  have hmem : ∀ a b : ℕ,
      (r ∈ fetchOrders log a b ↔ r ∈ log ∧ a ≤ r.vegaTime ∧ r.vegaTime < b) := by
    intro a b
    rw [fetchOrders, (List.perm_insertionSort timeSeqLE _).mem_iff]
    simp [List.mem_filter]
  refine ⟨hmem s e, fun hW ht => ⟨?_, fun hr => ?_⟩⟩
  · intro hcontra
    have := ((hmem s e).mp hcontra).2.2
    omega
  · exact (hmem e (e + W)).mpr ⟨hr, by omega, by omega⟩

theorem fetchOrders_window_witness : rE ∈ fetchOrders [rE] 5 (5 + 1) := by
  have h := (fetchOrders_window [rE] rE 0 5 1).2 (by decide) rfl
  exact h.2 (List.mem_singleton_self rE)

end Main

/-- C7: the strict classifier of `main.go` returns true iff the status is
active or parked, the type is limit, and the time-in-force is neither IOC nor
FOK; it is a pure function, so two applications to the same record agree. -/
theorem isLive_strict_characterization (o : Main.Order) :
    (o.isLive = true ↔
      (o.status = OrderStatus.Active ∨ o.status = OrderStatus.Parked) ∧
        o.otype = OrderType.Limit ∧
        o.timeInForce ≠ OrderTimeInForce.IOC ∧ o.timeInForce ≠ OrderTimeInForce.FOK) ∧
      o.isLive = o.isLive := by
  refine ⟨?_, rfl⟩
  obtain ⟨i, m, sd, p, r, tif, ty, st⟩ := o
  cases st <;> cases ty <;> cases tif <;> simp [Main.Order.isLive]

/-- C8: the minimal classifier of the unnamed variant returns true iff the
status is active, independently of every other field of the record. -/
theorem isLive_minimal_characterization (o : Part0.Order) :
    o.isLive = true ↔ o.status = OrderStatus.Active := by
  simp [Part0.Order.isLive]

/-- C9: at the same failing row write the `main.go` variant discards the
error and reports success while the unnamed variant propagates it wrapped;
the claim that a failed CSV row write is always fatal is contradicted by the
`main.go` loop (its `csvWriter.Write(record)` result is ignored). -/
theorem writeRows_error_divergence :
    Main.writeDepthRows (fun _ => Except.error "disk full") [["row"]] = Except.ok () ∧
      Part0.writeRows (fun _ => Except.error "disk full") [["row"]] =
        Except.error "failed to write to file: disk full" :=
  ⟨rfl, rfl⟩

theorem driveLoop_buckets_aux (W : ℕ) (hW : 0 < W) (T : ℕ) :
    ∀ n S0, T - S0 ≤ n →
      driveLoop W hW S0 T =
        (List.range ((T - S0) / W)).map (fun i => (S0 + i * W, S0 + (i + 1) * W)) := by
  intro n
  induction n with
  | zero =>
      intro S0 hn
      rw [driveLoop, dif_neg (by omega)]
      have h0 : (T - S0) / W = 0 := by
        rw [Nat.le_zero.mp hn]
        exact Nat.zero_div W
      rw [h0]
      rfl
  | succ n ih =>
      intro S0 hn
      by_cases h : S0 + W ≤ T
      · rw [driveLoop, dif_pos h, ih (S0 + W) (by omega)]
        have hdiv : (T - S0) / W = (T - (S0 + W)) / W + 1 := by
          have h1 : (T - S0) / W = (T - S0 - W) / W + 1 :=
            Nat.div_eq_sub_div hW (by omega)
          have h2 : T - S0 - W = T - (S0 + W) := by omega
          rw [h1, h2]
        rw [hdiv, List.range_succ_eq_map, List.map_cons, List.map_map]
        congr 1
        · simp
        · refine List.map_congr_left (fun i _ => ?_)
          simp only [Function.comp_apply, Prod.mk.injEq, Nat.succ_eq_add_one]
          constructor <;> ring
      · rw [driveLoop, dif_neg h]
        have h0 : (T - S0) / W = 0 := Nat.div_eq_of_lt (by omega)
        rw [h0]
        rfl

/-- C5: with the latest known event time `T` fixed and a positive bucket
width `W`, the driving loop processes, in order, exactly the buckets
`[S0 + i*W, S0 + (i+1)*W)` for `i` below `(T - S0) / W`: it halts before the
first bucket whose end strictly exceeds `T`, the bucket count is the floor of
`(T - S0) / W`, and a bucket whose end equals `T` exactly is still
processed. -/
theorem driveLoop_buckets (W : ℕ) (hW : 0 < W) (S0 T : ℕ) :
    driveLoop W hW S0 T =
      (List.range ((T - S0) / W)).map (fun i => (S0 + i * W, S0 + (i + 1) * W)) :=
  driveLoop_buckets_aux W hW T (T - S0) S0 le_rfl

theorem driveLoop_buckets_witness :
    driveLoop 2 (Nat.succ_pos 1) 1 7 = [(1, 3), (3, 5), (5, 7)] := by
  rw [driveLoop_buckets 2 (Nat.succ_pos 1) 1 7]
  rfl

end DepthExporter
